import Mathlib

/-!
Verification of the tag-model, contrast, and renderer-layout logic of the
QTagEdit widget (src/src/qtagedit.cpp).

The widget's text buffer (a QString) is modelled as a `List Char`; Qt string
operations (`split`, `join`, `lastIndexOf`, `truncate`, concatenation) are
embedded as executable functions on character lists.  The widget's relevant
configuration (the optional property separator and the unique-tags flag) is
passed explicitly to each operation.
-/

namespace QTagEdit

/-- The text buffer of the line edit, a QString modelled as a list of
characters. -/
abbrev QStr := List Char

/-- QString::split with the default KeepEmptyParts behaviour: splitting the
empty string yields one empty segment, and separators at the ends or doubled
separators yield empty segments. -/
def splitKeep (sep : Char) : List Char → List (List Char)
  | [] => [[]]
  | c :: cs =>
    match splitKeep sep cs with
    | [] => [[]]
    | t :: ts => if c = sep then [] :: t :: ts else (c :: t) :: ts

/-- QString::split with Qt::SkipEmptyParts: empty segments are dropped. -/
def splitSkipEmpty (sep : Char) (s : List Char) : List (List Char) :=
  (splitKeep sep s).filter (fun t => !t.isEmpty)

/-- QStringList::join(sep): interleave the single separator character between
consecutive entries. -/
def joinSep (sep : Char) : List (List Char) → List Char
  | [] => []
  | [t] => t
  | t :: ts => t ++ sep :: joinSep sep ts

/-- QString::lastIndexOf(c): index of the last occurrence of `c`, or `none`
when absent (the C++ API returns -1 in that case). -/
def lastIndexOf (c : Char) : List Char → Option Nat
  | [] => none
  | x :: xs =>
    match lastIndexOf c xs with
    | some i => some (i + 1)
    | none => if x = c then some 0 else none

/-- QTagEdit::Property: a name together with an ordered list of values. -/
structure Property where
  name : QStr
  values : List QStr
deriving DecidableEq

/-- QTagEdit::setTags: `setText(tags.join(" "))`. -/
def setTags (tags : List QStr) : QStr := joinSep ' ' tags

/-- QTagEdit::getTags: `text().split(" ", Qt::SkipEmptyParts)`. -/
def getTags (text : QStr) : List QStr := splitSkipEmpty ' ' text

/-- QTagEdit::addTag: the tag replaces an empty buffer, and otherwise is
appended after a single space. -/
def addTag (text : QStr) (tag : QStr) : QStr :=
  if text.isEmpty then tag else text ++ ' ' :: tag

/-- QTagEdit::removeLastTag: truncate at the last space when one exists,
clear the buffer otherwise. -/
def removeLastTag (text : QStr) : QStr :=
  match lastIndexOf ' ' text with
  | some i => text.take i
  | none => []

/-- The token built for one property by QTagEdit::setProperties and
QTagEdit::addProperty: the name, then for each value the separator character
followed by that value; just the name when no separator is configured. -/
def propertyToTag (sep : Option Char) (p : Property) : QStr :=
  match sep with
  | some c => p.name ++ (p.values.map (fun v => c :: v)).flatten
  | none => p.name

/-- QTagEdit::setProperties: build one token per property and hand the token
list to setTags. -/
def setProperties (sep : Option Char) (properties : List Property) : QStr :=
  setTags (properties.map (propertyToTag sep))

/-- QTagEdit::addProperty: build the token and append it to the buffer after
an unconditional space (`setText(text() + " " + tag)`). -/
def addProperty (sep : Option Char) (text : QStr) (p : Property) : QStr :=
  text ++ ' ' :: propertyToTag sep p

/-- QTagEdit::getProperties: for each tag of getTags, when a separator is
configured split the tag on it (keeping empty segments, the QString::split
default); the first segment is the name and, when more than one segment
exists, the remaining segments are the values.  The separator test inside the
source's loop is loop-invariant and is hoisted out here: when no separator is
configured nothing is ever appended and the result is empty. -/
def getProperties (sep : Option Char) (text : QStr) : List Property :=
  match sep with
  | none => []
  | some c =>
    (getTags text).map (fun tag =>
      let tokens := splitKeep c tag
      if tokens.length > 1 then
        { name := tokens.headD [], values := tokens.tail }
      else
        { name := tokens.headD [], values := [] })

/-- std::unique with a binary predicate: drop every element equal (under `eq`)
to the last kept element, scanning left to right from the most recently kept
element `prev`. -/
def stdUniqueFrom {α : Type} (eq : α → α → Bool) (prev : α) : List α → List α
  | [] => []
  | x :: xs =>
    if eq prev x then stdUniqueFrom eq prev xs
    else x :: stdUniqueFrom eq x xs

/-- std::unique over a whole list: the head is always kept. -/
def stdUnique {α : Type} (eq : α → α → Bool) : List α → List α
  | [] => []
  | x :: xs => x :: stdUniqueFrom eq x xs

/-- QTagEdit::makeTagsUnique: no-op when unique_tags is false; otherwise
collapse consecutive duplicates of getProperties by name (when a separator is
configured) or of getTags by string equality, and write the result back via
setProperties / setTags. -/
def makeTagsUnique (sep : Option Char) (unique_tags : Bool) (text : QStr) : QStr :=
  if !unique_tags then text
  else
    match sep with
    | some _ =>
      setProperties sep
        (stdUnique (fun a b => a.name == b.name) (getProperties sep text))
    | none =>
      setTags (stdUnique (fun a b => a == b) (getTags text))

/-- A QColor with 0–255 integer channels. -/
structure RGBA where
  red : ℕ
  green : ℕ
  blue : ℕ
  alpha : ℕ
deriving DecidableEq

/-- Impl::kDarkColor, the black pen colour. -/
def kDarkColor : RGBA := ⟨0, 0, 0, 255⟩

/-- Impl::kBrightColor, the off-white pen colour. -/
def kBrightColor : RGBA := ⟨245, 245, 245, 255⟩

/-- Impl::kDarkColorTreshold. -/
def kDarkColorTreshold : ℚ := 150

/-- The scale_a lambda of QTagEdit::getPenForColor:
`255 - alpha / 255.0 * (255.0 - value)`.  The C++ double arithmetic is
modelled exactly over the rationals. -/
def scale_a (alpha : ℕ) (value : ℕ) : ℚ :=
  255 - (alpha : ℚ) / 255 * (255 - (value : ℚ))

/-- The weighted brightness of QTagEdit::getPenForColor: each channel scaled
by scale_a and combined with Impl::kRgbBrightnessWeights = {0.299, 0.587,
0.114}. -/
def weightedColor (color : RGBA) : ℚ :=
  scale_a color.alpha color.red * (299 / 1000) +
  scale_a color.alpha color.green * (587 / 1000) +
  scale_a color.alpha color.blue * (114 / 1000)

/-- QTagEdit::getPenForColor: the dark pen when the weighted brightness
exceeds the threshold, the bright pen otherwise. -/
def getPenForColor (color : RGBA) : RGBA :=
  if weightedColor color > kDarkColorTreshold then kDarkColor else kBrightColor

/-- The x-offsets at which QTagEdit::renderTags draws the successive tags:
the rectangle's left edge is advanced by
`fontMetrics().horizontalAdvance(tag + " ")` after each tag, where the
text-measurement service is the abstract width function `w`. -/
def renderTagsOffsets (w : QStr → ℤ) (left : ℤ) : List QStr → List ℤ
  | [] => []
  | tag :: tags => left :: renderTagsOffsets w (left + w (tag ++ [' '])) tags

/-- The x-offsets used by QTagEdit::renderTagBackgrounds, advanced by the
same `horizontalAdvance(tag + " ")` expression. -/
def renderTagBackgroundsOffsets (w : QStr → ℤ) (left : ℤ) : List QStr → List ℤ
  | [] => []
  | tag :: tags =>
    left :: renderTagBackgroundsOffsets w (left + w (tag ++ [' '])) tags

/-- A buffer is valid when re-joining its parsed tags reproduces it exactly:
this holds precisely for buffers whose tokens are separated by exactly one
space with no leading, trailing or doubled space. -/
def validBuffer (text : QStr) : Prop := setTags (getTags text) = text

instance (text : QStr) : Decidable (validBuffer text) := by
  unfold validBuffer; infer_instance

/-- A well-formed tag argument: non-empty and containing no space. -/
def goodTag (t : QStr) : Prop := t ≠ [] ∧ ' ' ∉ t

instance (t : QStr) : Decidable (goodTag t) := by
  unfold goodTag; infer_instance

/-- A well-formed property argument: name and every value non-empty and
space-free. -/
def goodProperty (p : Property) : Prop :=
  goodTag p.name ∧ ∀ v ∈ p.values, goodTag v

instance (p : Property) : Decidable (goodProperty p) := by
  unfold goodProperty; infer_instance

/-! ### Basic lemmas about splitting and joining -/

theorem splitKeep_cons (sep c : Char) (cs : List Char) :
    splitKeep sep (c :: cs) =
      match splitKeep sep cs with
      | [] => [[]]
      | t :: ts => if c = sep then [] :: t :: ts else (c :: t) :: ts := rfl

theorem splitKeep_ne_nil (sep : Char) (s : List Char) : splitKeep sep s ≠ [] := by
  cases s with
  | nil => simp [splitKeep]
  | cons c cs =>
    unfold splitKeep
    cases h : splitKeep sep cs with
    | nil => simp
    | cons t ts => by_cases hc : c = sep <;> simp [hc]

theorem sep_not_mem_of_mem_splitKeep (sep : Char) (s : List Char) :
    ∀ t ∈ splitKeep sep s, sep ∉ t := by
  induction s with
  | nil => simp [splitKeep]
  | cons c cs ih =>
    unfold splitKeep
    cases h : splitKeep sep cs with
    | nil => simp
    | cons t ts =>
      rw [h] at ih
      by_cases hc : c = sep
      · simp only [hc, if_pos rfl]
        intro u hu
        rcases List.mem_cons.mp hu with h1 | h2
        · subst h1; simp
        · exact ih u h2
      · simp only [if_neg hc]
        intro u hu
        rcases List.mem_cons.mp hu with h1 | h2
        · subst h1
          intro hmem
          rcases List.mem_cons.mp hmem with h3 | h4
          · exact hc h3.symm
          · exact ih t (List.mem_cons_self t ts) h4
        · exact ih u (List.mem_cons_of_mem t h2)

theorem splitKeep_of_not_mem {sep : Char} {s : List Char} (h : sep ∉ s) :
    splitKeep sep s = [s] := by
  induction s with
  | nil => rfl
  | cons c cs ih =>
    rw [List.mem_cons, not_or] at h
    have hc : ¬c = sep := fun hcc => h.1 hcc.symm
    rw [splitKeep_cons, ih h.2]
    simp [hc]

theorem splitKeep_append_sep {sep : Char} {a : List Char} (b : List Char)
    (h : sep ∉ a) : splitKeep sep (a ++ sep :: b) = a :: splitKeep sep b := by
  induction a with
  | nil =>
    show splitKeep sep (sep :: b) = [] :: splitKeep sep b
    rw [splitKeep_cons]
    cases hb : splitKeep sep b with
    | nil => exact absurd hb (splitKeep_ne_nil sep b)
    | cons t ts => simp
  | cons c cs ih =>
    rw [List.mem_cons, not_or] at h
    have hc : ¬c = sep := fun hcc => h.1 hcc.symm
    show splitKeep sep (c :: (cs ++ sep :: b)) = (c :: cs) :: splitKeep sep b
    rw [splitKeep_cons, ih h.2]
    simp [hc]

theorem joinSep_splitKeep (sep : Char) (s : List Char) :
    joinSep sep (splitKeep sep s) = s := by
  induction s with
  | nil => rfl
  | cons c cs ih =>
    unfold splitKeep
    cases h : splitKeep sep cs with
    | nil => exact absurd h (splitKeep_ne_nil sep cs)
    | cons t ts =>
      rw [h] at ih
      by_cases hc : c = sep
      · simp only [hc, if_pos rfl]
        show sep :: joinSep sep (t :: ts) = sep :: cs
        rw [ih]
      · simp only [if_neg hc]
        cases ts with
        | nil => show c :: t = c :: cs; rw [show joinSep sep [t] = t from rfl] at ih; rw [ih]
        | cons u us =>
          show (c :: t) ++ sep :: joinSep sep (u :: us) = c :: cs
          rw [show joinSep sep (t :: u :: us) = t ++ sep :: joinSep sep (u :: us) from rfl] at ih
          simpa using ih

theorem splitKeep_headD (sep : Char) (s : List Char) :
    (splitKeep sep s).headD [] = s.takeWhile (fun c => c ≠ sep) := by
  induction s with
  | nil => rfl
  | cons c cs ih =>
    rw [splitKeep_cons]
    cases h : splitKeep sep cs with
    | nil => exact absurd h (splitKeep_ne_nil sep cs)
    | cons t ts =>
      rw [h] at ih
      simp only [List.headD_cons] at ih
      show (if c = sep then [] :: t :: ts else (c :: t) :: ts).headD [] =
        List.takeWhile (fun x => x ≠ sep) (c :: cs)
      by_cases hc : c = sep
      · rw [if_pos hc, List.takeWhile_cons]
        subst hc
        simp
      · rw [if_neg hc]
        simp [List.takeWhile_cons, hc, ih]

theorem joinSep_append {sep : Char} {A : List (List Char)} (B : List (List Char))
    (hA : A ≠ []) (hB : B ≠ []) :
    joinSep sep (A ++ B) = joinSep sep A ++ sep :: joinSep sep B := by
  induction A with
  | nil => exact absurd rfl hA
  | cons t ts ih =>
    cases ts with
    | nil =>
      cases B with
      | nil => exact absurd rfl hB
      | cons u us => simp [joinSep]
    | cons t2 ts2 =>
      have : joinSep sep ((t2 :: ts2) ++ B) =
          joinSep sep (t2 :: ts2) ++ sep :: joinSep sep B := ih (by simp)
      show t ++ sep :: joinSep sep ((t2 :: ts2) ++ B) =
        (t ++ sep :: joinSep sep (t2 :: ts2)) ++ sep :: joinSep sep B
      rw [this]
      simp

theorem mem_joinSep {sep : Char} {L : List (List Char)} {x : Char}
    (h : x ∈ joinSep sep L) : x = sep ∨ ∃ t ∈ L, x ∈ t := by
  induction L with
  | nil => simp [joinSep] at h
  | cons t ts ih =>
    cases ts with
    | nil =>
      right
      exact ⟨t, List.mem_cons_self t [], h⟩
    | cons t2 ts2 =>
      rw [show joinSep sep (t :: t2 :: ts2) = t ++ sep :: joinSep sep (t2 :: ts2) from rfl] at h
      rcases List.mem_append.mp h with h1 | h2
      · exact Or.inr ⟨t, List.mem_cons_self t _, h1⟩
      · rcases List.mem_cons.mp h2 with h3 | h4
        · exact Or.inl h3
        · rcases ih h4 with h5 | ⟨u, hu, hx⟩
          · exact Or.inl h5
          · exact Or.inr ⟨u, List.mem_cons_of_mem t hu, hx⟩

theorem joinSep_ne_nil {sep : Char} {L : List (List Char)} (hL : L ≠ [])
    (h : ∀ t ∈ L, t ≠ []) : joinSep sep L ≠ [] := by
  cases L with
  | nil => exact absurd rfl hL
  | cons t ts =>
    cases ts with
    | nil => exact h t (List.mem_cons_self t [])
    | cons t2 ts2 =>
      show t ++ sep :: joinSep sep (t2 :: ts2) ≠ []
      simp

/-! ### The getTags / setTags round trip -/

theorem splitKeep_joinSep {sep : Char} {L : List (List Char)} (hL : L ≠ [])
    (h : ∀ t ∈ L, sep ∉ t) : splitKeep sep (joinSep sep L) = L := by
  induction L with
  | nil => exact absurd rfl hL
  | cons t ts ih =>
    cases ts with
    | nil =>
      show splitKeep sep (joinSep sep [t]) = [t]
      exact splitKeep_of_not_mem (h t (List.mem_cons_self t []))
    | cons t2 ts2 =>
      show splitKeep sep (t ++ sep :: joinSep sep (t2 :: ts2)) = t :: t2 :: ts2
      rw [splitKeep_append_sep _ (h t (List.mem_cons_self t _))]
      rw [ih (by simp) (fun u hu => h u (List.mem_cons_of_mem t hu))]

theorem getTags_setTags {L : List QStr} (h : ∀ t ∈ L, t ≠ [] ∧ ' ' ∉ t) :
    getTags (setTags L) = L := by
  cases hL : L with
  | nil => rfl
  | cons t ts =>
    rw [← hL]
    unfold getTags setTags splitSkipEmpty
    rw [splitKeep_joinSep (by rw [hL]; simp) (fun u hu => (h u hu).2)]
    rw [List.filter_eq_self.mpr]
    intro u hu
    have := (h u hu).1
    simp [List.isEmpty_iff, this]

theorem getTags_good (text : QStr) : ∀ t ∈ getTags text, t ≠ [] ∧ ' ' ∉ t := by
  intro t ht
  unfold getTags splitSkipEmpty at ht
  rw [List.mem_filter] at ht
  constructor
  · have := ht.2
    simpa [List.isEmpty_iff] using this
  · exact sep_not_mem_of_mem_splitKeep ' ' text t ht.1

theorem validBuffer_setTags {L : List QStr} (h : ∀ t ∈ L, t ≠ [] ∧ ' ' ∉ t) :
    validBuffer (setTags L) := by
  unfold validBuffer
  rw [getTags_setTags h]

theorem validBuffer_iff (text : QStr) :
    validBuffer text ↔ ∃ L, (∀ t ∈ L, t ≠ [] ∧ ' ' ∉ t) ∧ text = setTags L := by
  constructor
  · intro h
    exact ⟨getTags text, getTags_good text, h.symm⟩
  · rintro ⟨L, hL, rfl⟩
    exact validBuffer_setTags hL

theorem getTags_idem (text : QStr) :
    getTags (setTags (getTags text)) = getTags text :=
  getTags_setTags (getTags_good text)

theorem getTags_ne_nil_of_valid {text : QStr} (hv : validBuffer text)
    (hne : text ≠ []) : getTags text ≠ [] := by
  intro h0
  rw [validBuffer, h0] at hv
  exact hne hv.symm

/-! ### Property parsing and rebuilding -/

theorem propertyToTag_joinSep (c : Char) (n : QStr) (vs : List QStr) :
    propertyToTag (some c) ⟨n, vs⟩ = joinSep c (n :: vs) := by
  unfold propertyToTag
  induction vs generalizing n with
  | nil => simp [joinSep]
  | cons v vs ih =>
    show n ++ ((c :: v) ++ (vs.map (fun u => c :: u)).flatten) =
      n ++ c :: joinSep c (v :: vs)
    have := ih v
    simp only at this
    rw [← this]
    simp

theorem getProperties_eq_map (c : Char) (text : QStr) :
    getProperties (some c) text =
      (getTags text).map (fun tag =>
        { name := (splitKeep c tag).headD []
          values := (splitKeep c tag).tail }) := by
  unfold getProperties
  apply List.map_congr_left
  intro tag _
  cases h : splitKeep c tag with
  | nil => exact absurd h (splitKeep_ne_nil c tag)
  | cons t ts =>
    cases ts with
    | nil => simp
    | cons u us => simp

theorem propertyToTag_rebuild (c : Char) (tag : QStr) :
    propertyToTag (some c)
      ⟨(splitKeep c tag).headD [], (splitKeep c tag).tail⟩ = tag := by
  rw [propertyToTag_joinSep]
  cases h : splitKeep c tag with
  | nil => exact absurd h (splitKeep_ne_nil c tag)
  | cons t ts =>
    have := joinSep_splitKeep c tag
    rw [h] at this
    simpa using this

/-! ### std::unique -/

theorem stdUniqueFrom_subset {α : Type} (eq : α → α → Bool) (prev : α)
    (l : List α) : ∀ x ∈ stdUniqueFrom eq prev l, x ∈ l := by
  induction l generalizing prev with
  | nil => simp [stdUniqueFrom]
  | cons y ys ih =>
    intro x hx
    unfold stdUniqueFrom at hx
    by_cases h : eq prev y
    · rw [if_pos h] at hx
      exact List.mem_cons_of_mem y (ih prev x hx)
    · rw [if_neg h] at hx
      rcases List.mem_cons.mp hx with h1 | h2
      · exact h1 ▸ List.mem_cons_self y ys
      · exact List.mem_cons_of_mem y (ih y x h2)

theorem stdUnique_subset {α : Type} (eq : α → α → Bool) (l : List α) :
    ∀ x ∈ stdUnique eq l, x ∈ l := by
  cases l with
  | nil => simp [stdUnique]
  | cons y ys =>
    intro x hx
    unfold stdUnique at hx
    rcases List.mem_cons.mp hx with h1 | h2
    · exact h1 ▸ List.mem_cons_self y ys
    · exact List.mem_cons_of_mem y (stdUniqueFrom_subset eq y ys x h2)

theorem stdUniqueFrom_map {α β : Type} (eq : β → β → Bool) (f : α → β)
    (prev : α) (l : List α) :
    stdUniqueFrom eq (f prev) (l.map f) =
      (stdUniqueFrom (fun a b => eq (f a) (f b)) prev l).map f := by
  induction l generalizing prev with
  | nil => rfl
  | cons y ys ih =>
    show stdUniqueFrom eq (f prev) (f y :: ys.map f) = _
    unfold stdUniqueFrom
    by_cases h : eq (f prev) (f y)
    · rw [if_pos h, ih prev]
      simp [stdUniqueFrom, h]
    · rw [if_neg h, ih y]
      simp [stdUniqueFrom, h]

theorem stdUnique_map {α β : Type} (eq : β → β → Bool) (f : α → β)
    (l : List α) :
    stdUnique eq (l.map f) =
      (stdUnique (fun a b => eq (f a) (f b)) l).map f := by
  cases l with
  | nil => rfl
  | cons y ys =>
    show f y :: stdUniqueFrom eq (f y) (ys.map f) =
      (y :: stdUniqueFrom (fun a b => eq (f a) (f b)) y ys).map f
    rw [stdUniqueFrom_map]
    rfl

theorem stdUniqueFrom_destutter {α : Type} [BEq α] [LawfulBEq α]
    [DecidableEq α] (prev : α)
    (l : List α) :
    prev :: stdUniqueFrom (fun a b => a == b) prev l =
      List.destutter' (· ≠ ·) prev l := by
  induction l generalizing prev with
  | nil => rfl
  | cons y ys ih =>
    rw [List.destutter']
    unfold stdUniqueFrom
    by_cases h : prev = y
    · rw [if_pos (by simp [h]), if_neg (by simp [h]), ih prev]
    · rw [if_neg (by simp [h]), if_pos (by simp [h])]
      rw [← ih y]

theorem stdUnique_destutter {α : Type} [BEq α] [LawfulBEq α] [DecidableEq α]
    (l : List α) :
    stdUnique (fun a b => a == b) l = l.destutter (· ≠ ·) := by
  cases l with
  | nil => rfl
  | cons y ys =>
    show y :: stdUniqueFrom (fun a b => a == b) y ys = _
    rw [List.destutter, stdUniqueFrom_destutter]

/-! ### lastIndexOf and removeLastTag -/

theorem lastIndexOf_of_not_mem {c : Char} {s : List Char} (h : c ∉ s) :
    lastIndexOf c s = none := by
  induction s with
  | nil => rfl
  | cons x xs ih =>
    rw [List.mem_cons, not_or] at h
    have hx : ¬x = c := fun hx => h.1 hx.symm
    unfold lastIndexOf
    rw [ih h.2]
    simp [hx]

theorem lastIndexOf_append_cons {c : Char} (a : List Char) {b : List Char}
    (h : c ∉ b) : lastIndexOf c (a ++ c :: b) = some a.length := by
  induction a with
  | nil =>
    show lastIndexOf c (c :: b) = some 0
    unfold lastIndexOf
    rw [lastIndexOf_of_not_mem h]
    simp
  | cons x xs ih =>
    show lastIndexOf c (x :: (xs ++ c :: b)) = some (xs.length + 1)
    unfold lastIndexOf
    rw [ih]

theorem take_length_append (a b : List Char) : (a ++ b).take a.length = a := by
  induction a with
  | nil => rfl
  | cons x xs ih => simp [ih]

theorem removeLastTag_append {a : List Char} (b : List Char) (h : ' ' ∉ b) :
    removeLastTag (a ++ ' ' :: b) = a := by
  unfold removeLastTag
  rw [lastIndexOf_append_cons a h]
  exact take_length_append a (' ' :: b)

theorem removeLastTag_of_no_space {text : QStr} (h : ' ' ∉ text) :
    removeLastTag text = [] := by
  unfold removeLastTag
  rw [lastIndexOf_of_not_mem h]

/-! ### Buffer validity preservation -/

theorem validBuffer_nil : validBuffer [] := by decide

theorem validBuffer_of_goodTag {t : QStr} (h : goodTag t) : validBuffer t := by
  have : setTags [t] = t := rfl
  rw [← this]
  exact validBuffer_setTags (by intro u hu; rcases List.mem_cons.mp hu with h1 | h2
                                · exact h1 ▸ h
                                · simp at h2)

theorem validBuffer_append {a b : QStr} (ha : validBuffer a)
    (hb : validBuffer b) (hae : a ≠ []) (hbe : b ≠ []) :
    validBuffer (a ++ ' ' :: b) := by
  rcases (validBuffer_iff a).mp ha with ⟨La, hLa, rfl⟩
  rcases (validBuffer_iff b).mp hb with ⟨Lb, hLb, rfl⟩
  have hLan : La ≠ [] := by rintro rfl; exact hae rfl
  have hLbn : Lb ≠ [] := by rintro rfl; exact hbe rfl
  rw [show setTags La ++ ' ' :: setTags Lb = setTags (La ++ Lb) from
    (joinSep_append Lb hLan hLbn).symm]
  refine validBuffer_setTags ?_
  intro t ht
  rcases List.mem_append.mp ht with h1 | h2
  · exact hLa t h1
  · exact hLb t h2

theorem valid_joinSep_space {L : List QStr}
    (h : ∀ t ∈ L, validBuffer t ∧ t ≠ []) : validBuffer (joinSep ' ' L) := by
  induction L with
  | nil => exact validBuffer_nil
  | cons t ts ih =>
    cases ts with
    | nil => exact (h t (List.mem_cons_self t [])).1
    | cons t2 ts2 =>
      show validBuffer (t ++ ' ' :: joinSep ' ' (t2 :: ts2))
      have hrest : ∀ u ∈ t2 :: ts2, validBuffer u ∧ u ≠ [] :=
        fun u hu => h u (List.mem_cons_of_mem t hu)
      refine validBuffer_append (h t (List.mem_cons_self t _)).1
        (ih hrest) (h t (List.mem_cons_self t _)).2 ?_
      exact joinSep_ne_nil (by simp) (fun u hu => (hrest u hu).2)

theorem propertyToTag_good {sep : Option Char} {p : Property}
    (h : goodProperty p) :
    validBuffer (propertyToTag sep p) ∧ propertyToTag sep p ≠ [] := by
  rcases p with ⟨n, vs⟩
  rcases h with ⟨hn, hvs⟩
  cases sep with
  | none => exact ⟨validBuffer_of_goodTag hn, hn.1⟩
  | some c =>
    rw [propertyToTag_joinSep]
    have hmem : ∀ t ∈ n :: vs, t ≠ [] ∧ ' ' ∉ t := by
      intro t ht
      rcases List.mem_cons.mp ht with h1 | h2
      · exact h1 ▸ hn
      · exact hvs t h2
    have hne : joinSep c (n :: vs) ≠ [] :=
      joinSep_ne_nil (by simp) (fun t ht => (hmem t ht).1)
    by_cases hc : c = ' '
    · subst hc
      exact ⟨validBuffer_setTags hmem, hne⟩
    · refine ⟨validBuffer_of_goodTag ⟨hne, ?_⟩, hne⟩
      intro hsp
      rcases mem_joinSep hsp with h1 | ⟨t, ht, hx⟩
      · exact hc h1.symm
      · exact (hmem t ht).2 hx

theorem setProperties_valid {sep : Option Char} {props : List Property}
    (h : ∀ p ∈ props, goodProperty p) : validBuffer (setProperties sep props) := by
  unfold setProperties setTags
  refine valid_joinSep_space ?_
  intro t ht
  rcases List.mem_map.mp ht with ⟨p, hp, rfl⟩
  exact propertyToTag_good (h p hp)

theorem addTag_valid {text tag : QStr} (hv : validBuffer text)
    (ht : goodTag tag) : validBuffer (addTag text tag) := by
  unfold addTag
  by_cases h : text = []
  · subst h
    simp only [List.isEmpty_nil, if_pos]
    exact validBuffer_of_goodTag ht
  · rw [if_neg (by simpa [List.isEmpty_iff] using h)]
    exact validBuffer_append hv (validBuffer_of_goodTag ht) h ht.1

theorem removeLastTag_valid {text : QStr} (hv : validBuffer text) :
    validBuffer (removeLastTag text) := by
  rcases (validBuffer_iff text).mp hv with ⟨L, hL, rfl⟩
  rcases L.eq_nil_or_concat with rfl | ⟨L2, t, rfl⟩
  · exact validBuffer_nil
  · simp only [List.concat_eq_append] at hL ⊢
    cases L2 with
    | nil =>
      show validBuffer (removeLastTag (setTags [t]))
      have h1 : setTags [t] = t := rfl
      rw [h1, removeLastTag_of_no_space (hL t (by simp)).2]
      exact validBuffer_nil
    | cons u us =>
      have ht : t ∈ (u :: us) ++ [t] := by simp
      rw [show setTags ((u :: us) ++ [t]) =
          setTags (u :: us) ++ ' ' :: t from joinSep_append [t] (by simp) (by simp)]
      rw [removeLastTag_append t (hL t ht).2]
      exact validBuffer_setTags (fun v hv2 => hL v (List.mem_append_left [t] hv2))

theorem addProperty_valid {sep : Option Char} {text : QStr} {p : Property}
    (hv : validBuffer text) (hne : text ≠ []) (hp : goodProperty p) :
    validBuffer (addProperty sep text p) := by
  unfold addProperty
  exact validBuffer_append hv (propertyToTag_good hp).1 hne
    (propertyToTag_good hp).2

/-! ### makeTagsUnique -/

theorem makeTagsUnique_none_eq (text : QStr) :
    makeTagsUnique none true text =
      setTags (stdUnique (fun a b => a == b) (getTags text)) := rfl

theorem makeTagsUnique_some_eq (c : Char) (text : QStr) :
    makeTagsUnique (some c) true text =
      setTags (stdUnique
        (fun a b => a.takeWhile (fun x => x ≠ c) == b.takeWhile (fun x => x ≠ c))
        (getTags text)) := by
  show setProperties (some c)
      (stdUnique (fun a b => a.name == b.name) (getProperties (some c) text)) = _
  rw [getProperties_eq_map]
  rw [stdUnique_map (fun a b : Property => a.name == b.name)
    (fun tag => ({ name := (splitKeep c tag).headD []
                   values := (splitKeep c tag).tail } : Property))]
  unfold setProperties
  rw [List.map_map]
  have hmap :
      (stdUnique
        (fun a b : QStr =>
          (splitKeep c a).headD [] == (splitKeep c b).headD []) (getTags text)).map
        (propertyToTag (some c) ∘ fun tag =>
          ({ name := (splitKeep c tag).headD []
             values := (splitKeep c tag).tail } : Property)) =
      stdUnique
        (fun a b : QStr =>
          (splitKeep c a).headD [] == (splitKeep c b).headD []) (getTags text) := by
    rw [show (propertyToTag (some c) ∘ fun tag =>
        ({ name := (splitKeep c tag).headD []
           values := (splitKeep c tag).tail } : Property)) =
        fun tag => propertyToTag (some c)
          ({ name := (splitKeep c tag).headD []
             values := (splitKeep c tag).tail } : Property) from rfl]
    rw [List.map_congr_left (fun tag _ => propertyToTag_rebuild c tag)]
    exact List.map_id _
  rw [hmap]
  have heq : (fun a b : QStr =>
      (splitKeep c a).headD [] == (splitKeep c b).headD []) =
      (fun a b : QStr =>
        a.takeWhile (fun x => x ≠ c) == b.takeWhile (fun x => x ≠ c)) := by
    funext a b
    rw [splitKeep_headD, splitKeep_headD]
  rw [heq]

theorem makeTagsUnique_valid (sep : Option Char) (text : QStr) :
    validBuffer (makeTagsUnique sep true text) := by
  cases sep with
  | none =>
    rw [makeTagsUnique_none_eq]
    exact validBuffer_setTags
      (fun t ht => getTags_good text t (stdUnique_subset _ _ t ht))
  | some c =>
    rw [makeTagsUnique_some_eq]
    exact validBuffer_setTags
      (fun t ht => getTags_good text t (stdUnique_subset _ _ t ht))

theorem stdUniqueFrom_sublist {α : Type} (eq : α → α → Bool) (prev : α)
    (l : List α) : List.Sublist (stdUniqueFrom eq prev l) l := by
  induction l generalizing prev with
  | nil => simp [stdUniqueFrom]
  | cons y ys ih =>
    unfold stdUniqueFrom
    by_cases h : eq prev y
    · rw [if_pos h]
      exact (ih prev).cons y
    · rw [if_neg h]
      exact (ih y).cons₂ y

theorem stdUnique_sublist {α : Type} (eq : α → α → Bool) (l : List α) :
    List.Sublist (stdUnique eq l) l := by
  cases l with
  | nil => simp [stdUnique]
  | cons y ys =>
    show List.Sublist (y :: stdUniqueFrom eq y ys) (y :: ys)
    exact (stdUniqueFrom_sublist eq y ys).cons₂ y

/-! ### Renderer offsets -/

theorem renderOffsets_agree (w : QStr → ℤ) (left : ℤ) (tags : List QStr) :
    renderTagsOffsets w left tags = renderTagBackgroundsOffsets w left tags := by
  induction tags generalizing left with
  | nil => rfl
  | cons tag tags ih =>
    show left :: renderTagsOffsets w (left + w (tag ++ [' '])) tags =
      left :: renderTagBackgroundsOffsets w (left + w (tag ++ [' '])) tags
    rw [ih]

theorem renderTagsOffsets_headD {w : QStr → ℤ} {left : ℤ} {tags : List QStr}
    (h : tags ≠ []) : (renderTagsOffsets w left tags).getD 0 0 = left := by
  cases tags with
  | nil => exact absurd rfl h
  | cons tag rest => rfl

theorem renderTagsOffsets_getD_succ (w : QStr → ℤ) (left : ℤ)
    (tags : List QStr) (i : ℕ) (h : i + 1 < tags.length) :
    (renderTagsOffsets w left tags).getD (i + 1) 0 =
      (renderTagsOffsets w left tags).getD i 0 + w (tags.getD i [] ++ [' ']) := by
  induction tags generalizing left i with
  | nil => simp at h
  | cons tag rest ih =>
    cases i with
    | zero =>
      show (renderTagsOffsets w (left + w (tag ++ [' '])) rest).getD 0 0 =
        left + w (tag ++ [' '])
      have hr : rest ≠ [] := by
        intro h0
        rw [h0] at h
        simp at h
      rw [renderTagsOffsets_headD hr]
    | succ j =>
      show (renderTagsOffsets w (left + w (tag ++ [' '])) rest).getD (j + 1) 0 =
        (renderTagsOffsets w (left + w (tag ++ [' '])) rest).getD j 0 +
          w (rest.getD j [] ++ [' '])
      exact ih (left + w (tag ++ [' '])) j (by simpa using h)

/-! ### Contrast arithmetic -/

theorem scale_a_blend (a v : ℕ) :
    scale_a a v = (v : ℚ) + (255 - (a : ℚ)) / 255 * (255 - (v : ℚ)) := by
  unfold scale_a
  field_simp
  ring

/-! ### Claims -/

/-- C1: with a separator configured, getProperties maps each tag of getTags
to a Property whose name is the segment before the first separator and whose
values are the remaining separator-delimited segments in order (empty when
the tag has no separator); with no separator configured it returns the empty
sequence regardless of the buffer; with separator '=' on tags
["a=1=2", "b"] it returns [{a, [1, 2]}, {b, []}]. -/
theorem C1_getProperties :
    (∀ text, getProperties none text = [])
    ∧ (∀ c text, getProperties (some c) text =
        (getTags text).map (fun tag =>
          { name := tag.takeWhile (fun x => x ≠ c)
            values := (splitKeep c tag).tail }))
    ∧ getProperties (some '=')
        (setTags [['a', '=', '1', '=', '2'], ['b']]) =
      [⟨['a'], [['1'], ['2']]⟩, ⟨['b'], []⟩] := by
  refine ⟨fun text => rfl, fun c text => ?_, by decide⟩
  rw [getProperties_eq_map]
  exact List.map_congr_left (fun tag _ => by rw [splitKeep_headD])

/-- C2 fails as universally stated: a property whose name is empty and whose
value list is empty produces the empty token, and getTags drops the empty
token that setTags wrote, so the token sequence is not returned intact. -/
theorem C2_counterexample :
    ¬ getTags (setProperties (some '=') [⟨[], []⟩]) =
        [propertyToTag (some '=') ⟨[], []⟩] := by decide

/-- C2 (amended): each property becomes the single token name ++ (separator
:: value) for each value in order with no other delimiter, the token list is
passed to setTags, and getTags afterwards yields exactly those tokens
provided every token is non-empty and space-free; {x, [1, 2]} with separator
'=' yields the single tag "x=1=2". -/
theorem C2_setProperties :
    (∀ sep props, setProperties sep props =
      setTags (props.map (propertyToTag sep)))
    ∧ (∀ c (n : QStr) (vs : List QStr), propertyToTag (some c) ⟨n, vs⟩ =
        n ++ (vs.map (fun v => c :: v)).flatten)
    ∧ (∀ sep props,
        (∀ p ∈ props, propertyToTag sep p ≠ [] ∧ ' ' ∉ propertyToTag sep p) →
        getTags (setProperties sep props) = props.map (propertyToTag sep))
    ∧ getTags (setProperties (some '=') [⟨['x'], [['1'], ['2']]⟩]) =
        [['x', '=', '1', '=', '2']] := by
  refine ⟨fun sep props => rfl, fun c n vs => rfl,
    fun sep props h => ?_, by decide⟩
  refine getTags_setTags ?_
  intro t ht
  rcases List.mem_map.mp ht with ⟨p, hp, rfl⟩
  exact h p hp

/-- C2 witness: the amended round trip at a concrete property list. -/
theorem C2_setProperties_witness :
    getTags (setProperties (some '=') [⟨['x'], [['1'], ['2']]⟩, ⟨['b'], []⟩]) =
      [⟨['x'], [['1'], ['2']]⟩, ⟨['b'], []⟩].map (propertyToTag (some '=')) :=
  C2_setProperties.2.2.1 (some '=') [⟨['x'], [['1'], ['2']]⟩, ⟨['b'], []⟩]
    (by decide)

/-- C3: makeTagsUnique is the identity when the unique flag is false;
otherwise it collapses only runs of consecutive duplicates — compared by the
segment before the first separator (the Property name) when a separator is
configured, and by the whole tag otherwise — keeping the first entry of each
run (the result is List.destutter, a sublist of the input, so non-adjacent
duplicates survive); tags ["a", "a", "b", "a"] become ["a", "b", "a"]. -/
theorem C3_makeTagsUnique :
    (∀ sep text, makeTagsUnique sep false text = text)
    ∧ (∀ text, makeTagsUnique none true text =
        setTags ((getTags text).destutter (· ≠ ·)))
    ∧ (∀ c text, makeTagsUnique (some c) true text =
        setTags (stdUnique
          (fun a b =>
            a.takeWhile (fun x => x ≠ c) == b.takeWhile (fun x => x ≠ c))
          (getTags text)))
    ∧ (∀ (eq : QStr → QStr → Bool) (l : List QStr),
        List.Sublist (stdUnique eq l) l)
    ∧ getTags (makeTagsUnique none true
        (setTags [['a'], ['a'], ['b'], ['a']])) = [['a'], ['b'], ['a']] := by
  refine ⟨fun sep text => rfl, fun text => ?_, makeTagsUnique_some_eq,
    stdUnique_sublist, by decide⟩
  rw [makeTagsUnique_none_eq, stdUnique_destutter]

/-- C4: setTags followed by getTags returns exactly the given sequence for
every sequence of non-empty space-free tags; equivalently, re-setting the
tokens read from any buffer re-reads to the same tokens. -/
theorem C4_roundTrip :
    (∀ tags : List QStr, (∀ t ∈ tags, t ≠ [] ∧ ' ' ∉ t) →
      getTags (setTags tags) = tags)
    ∧ (∀ s : QStr, getTags (setTags (getTags s)) = getTags s) :=
  ⟨fun _ h => getTags_setTags h, getTags_idem⟩

/-- C4 witness: the round trip at a concrete token sequence. -/
theorem C4_roundTrip_witness :
    getTags (setTags [['a', 'b'], ['c']]) = [['a', 'b'], ['c']] :=
  C4_roundTrip.1 [['a', 'b'], ['c']] (by decide)

/-- C5: addProperty appends the constructed token after an unconditionally
prefixed space with no empty-buffer special case, so on an empty buffer the
result starts with a space character. -/
theorem C5_addProperty :
    (∀ sep text p, addProperty sep text p = text ++ ' ' :: propertyToTag sep p)
    ∧ (∀ sep p, addProperty sep [] p = ' ' :: propertyToTag sep p)
    ∧ (∀ sep p, (addProperty sep [] p).head? = some ' ') :=
  ⟨fun _ _ _ => rfl, fun _ _ => rfl, fun _ _ => rfl⟩

/-- C6 fails as stated: the empty buffer is reachable and valid, yet
addProperty with a well-formed property leaves a buffer with a leading
space, which violates the claimed invariant. -/
theorem C6_counterexample :
    validBuffer [] ∧ goodProperty ⟨['x'], []⟩
    ∧ addProperty none [] ⟨['x'], []⟩ = [' ', 'x']
    ∧ ¬ validBuffer [' ', 'x'] := by decide

/-- C6 (amended): a buffer is valid exactly when it is some join of
non-empty space-free tokens by single spaces (no leading, trailing or
doubled space); validity is preserved by setTags, addTag, removeLastTag,
setProperties and makeTagsUnique for well-formed arguments, and by
addProperty for well-formed arguments whenever the buffer is non-empty (on
the empty buffer addProperty produces a leading space, see the
counterexample). -/
theorem C6_bufferInvariant :
    (∀ text, validBuffer text ↔
      ∃ L, (∀ t ∈ L, t ≠ [] ∧ ' ' ∉ t) ∧ text = setTags L)
    ∧ (∀ tags, (∀ t ∈ tags, goodTag t) → validBuffer (setTags tags))
    ∧ (∀ text tag, validBuffer text → goodTag tag →
        validBuffer (addTag text tag))
    ∧ (∀ text, validBuffer text → validBuffer (removeLastTag text))
    ∧ (∀ sep props, (∀ p ∈ props, goodProperty p) →
        validBuffer (setProperties sep props))
    ∧ (∀ sep text p, validBuffer text → text ≠ [] → goodProperty p →
        validBuffer (addProperty sep text p))
    ∧ (∀ sep flag text, validBuffer text →
        validBuffer (makeTagsUnique sep flag text)) := by
  refine ⟨validBuffer_iff, fun tags h => validBuffer_setTags h,
    fun text tag hv ht => addTag_valid hv ht,
    fun text hv => removeLastTag_valid hv,
    fun sep props h => setProperties_valid h,
    fun sep text p hv hne hp => addProperty_valid hv hne hp,
    fun sep flag text hv => ?_⟩
  cases flag with
  | false => exact hv
  | true => exact makeTagsUnique_valid sep text

/-- C6 witness: the amended invariant at concrete buffers. -/
theorem C6_bufferInvariant_witness :
    validBuffer (addTag (setTags [['a']]) ['b'])
    ∧ validBuffer (removeLastTag ['a', ' ', 'b'])
    ∧ validBuffer (addProperty (some '=') ['a'] ⟨['x'], [['1']]⟩) :=
  ⟨C6_bufferInvariant.2.2.1 (setTags [['a']]) ['b'] (by decide) (by decide),
   C6_bufferInvariant.2.2.2.1 ['a', ' ', 'b'] (by decide),
   C6_bufferInvariant.2.2.2.2.2.1 (some '=') ['a'] ⟨['x'], [['1']]⟩
     (by decide) (by decide) (by decide)⟩

/-- C7: removeLastTag truncates at the last space, removing that space and
everything after it, and clears a space-free buffer entirely; buffer "a b c"
becomes "a b" and buffer "a" becomes "". -/
theorem C7_removeLastTag :
    (∀ a b : QStr, ' ' ∉ b → removeLastTag (a ++ ' ' :: b) = a)
    ∧ (∀ text : QStr, ' ' ∉ text → removeLastTag text = [])
    ∧ removeLastTag ['a', ' ', 'b', ' ', 'c'] = ['a', ' ', 'b']
    ∧ removeLastTag ['a'] = [] :=
  ⟨fun _ b h => removeLastTag_append b h,
   fun _ h => removeLastTag_of_no_space h, by decide, by decide⟩

/-- C7 witness: truncation at the last space on a concrete buffer. -/
theorem C7_removeLastTag_witness :
    removeLastTag (['a', ' ', 'b'] ++ ' ' :: ['c']) = ['a', ' ', 'b'] :=
  C7_removeLastTag.1 ['a', ' ', 'b'] ['c'] (by decide)

/-- C8: getPenForColor blends every channel toward white in proportion to
(255 - alpha)/255, combines the blended channels with weights 0.299, 0.587
and 0.114, and picks the black pen exactly when the weighted value exceeds
150 and the off-white (245, 245, 245) pen otherwise; opaque (245, 245, 245)
selects the dark pen, opaque near-black selects the bright pen, and at
alpha 0 every colour selects the dark pen. -/
theorem C8_penSelection :
    (∀ a v : ℕ, scale_a a v =
      (v : ℚ) + (255 - (a : ℚ)) / 255 * (255 - (v : ℚ)))
    ∧ (∀ color : RGBA, weightedColor color =
        scale_a color.alpha color.red * (299 / 1000) +
        scale_a color.alpha color.green * (587 / 1000) +
        scale_a color.alpha color.blue * (114 / 1000))
    ∧ (∀ color : RGBA, getPenForColor color =
        if weightedColor color > 150 then kDarkColor else kBrightColor)
    ∧ getPenForColor ⟨245, 245, 245, 255⟩ = kDarkColor
    ∧ getPenForColor ⟨10, 10, 10, 255⟩ = kBrightColor
    ∧ (∀ r g b : ℕ, getPenForColor ⟨r, g, b, 0⟩ = kDarkColor) := by
  refine ⟨scale_a_blend, fun color => rfl, fun color => rfl, ?_, ?_, ?_⟩
  · show (if weightedColor ⟨245, 245, 245, 255⟩ > kDarkColorTreshold
      then kDarkColor else kBrightColor) = kDarkColor
    rw [if_pos]
    unfold weightedColor scale_a kDarkColorTreshold
    norm_num
  · show (if weightedColor ⟨10, 10, 10, 255⟩ > kDarkColorTreshold
      then kDarkColor else kBrightColor) = kBrightColor
    rw [if_neg]
    unfold weightedColor scale_a kDarkColorTreshold
    norm_num
  · intro r g b
    show (if weightedColor ⟨r, g, b, 0⟩ > kDarkColorTreshold
      then kDarkColor else kBrightColor) = kDarkColor
    rw [if_pos]
    unfold weightedColor scale_a kDarkColorTreshold
    norm_num

/-- C9 fails as stated: with a (non-additive) width function w given by the
squared length, the second tag of ["a", "b"] is drawn at offset w("a ") = 4,
not at w("a") + w(" ") = 2. -/
theorem C9_counterexample :
    ¬ (renderTagsOffsets (fun s => (s.length : ℤ) * s.length) 0
        [['a'], ['b']]).getD 1 0 =
      (renderTagsOffsets (fun s => (s.length : ℤ) * s.length) 0
        [['a'], ['b']]).getD 0 0 + 1 * 1 + 1 * 1 := by decide

/-- C9 (amended): in both rendering passes the offsets agree and each tag's
offset advances by the measured width of the tag followed by a single space,
measured as one string; whenever the width function is additive over
concatenation this equals the tag's width plus the width of a single space
character, as the claim states. -/
theorem C9_renderAdvance :
    (∀ w left tags, renderTagsOffsets w left tags =
      renderTagBackgroundsOffsets w left tags)
    ∧ (∀ (w : QStr → ℤ) left tags i, i + 1 < tags.length →
        (renderTagsOffsets w left tags).getD (i + 1) 0 =
          (renderTagsOffsets w left tags).getD i 0 +
            w (tags.getD i [] ++ [' ']))
    ∧ (∀ (w : QStr → ℤ), (∀ s t, w (s ++ t) = w s + w t) →
        ∀ left tags i, i + 1 < tags.length →
        (renderTagsOffsets w left tags).getD (i + 1) 0 =
          (renderTagsOffsets w left tags).getD i 0 +
            w (tags.getD i []) + w [' ']) := by
  refine ⟨renderOffsets_agree, renderTagsOffsets_getD_succ,
    fun w hadd left tags i h => ?_⟩
  rw [renderTagsOffsets_getD_succ w left tags i h, hadd, add_assoc]

/-- C9 witness: the amended advance with the additive length metric. -/
theorem C9_renderAdvance_witness :
    (renderTagsOffsets (fun s : QStr => (s.length : ℤ)) 0
        [['a'], ['b']]).getD 1 0 =
      (renderTagsOffsets (fun s : QStr => (s.length : ℤ)) 0
        [['a'], ['b']]).getD 0 0 + 1 + 1 :=
  C9_renderAdvance.2.2 (fun s : QStr => (s.length : ℤ))
    (by intro s t; simp) 0 [['a'], ['b']] 0 (by decide)

/-- C10: for every buffer text and every space-free tag, addTag followed by
removeLastTag restores the buffer exactly. -/
theorem C10_addRemove (text tag : QStr) (h : ' ' ∉ tag) :
    removeLastTag (addTag text tag) = text := by
  by_cases ht : text = []
  · subst ht
    show removeLastTag (addTag [] tag) = []
    have h1 : addTag [] tag = tag := rfl
    rw [h1]
    exact removeLastTag_of_no_space h
  · unfold addTag
    rw [if_neg (by simpa [List.isEmpty_iff] using ht)]
    exact removeLastTag_append tag h

/-- C10 witness: the add / remove round trip at a concrete buffer. -/
theorem C10_addRemove_witness :
    removeLastTag (addTag ['a'] ['b']) = ['a'] :=
  C10_addRemove ['a'] ['b'] (by decide)

end QTagEdit
